import Mathlib

/-!
Verification development for GenerateSimpleRouteShapes.py.

The script loads three GTFS tables (shapes, routes, trips), joins them,
and for each route: picks the shape with the most (non-null) sequence
entries, merges the remaining shapes into it while discarding portions
that fall inside a 0.0001-degree buffer of the accumulated geometry, and
finally simplifies the result with Douglas-Peucker at tolerance 0.00005.

The tabular pipeline (joins, deduplication, selection loop, reduction
loop, assembly) is translated from the source. The geometric primitives
(buffer, within, difference, union, simplify) are calls into the shapely
library, which is an external dependency whose code is not part of this
repository; those are modelled from the dependency contract stated in the
specification, over exact rational coordinates.
-/

/-- A planar point: a (longitude, latitude) pair of rational coordinates. -/
abbrev Pt : Type := ℚ × ℚ

/-- Squared Euclidean distance between two points. -/
def dist2 (p q : Pt) : ℚ :=
  (p.1 - q.1) * (p.1 - q.1) + (p.2 - q.2) * (p.2 - q.2)

/-- Modelled from the spec: squared distance from point p to the segment
from a to b, the standard clamped-projection formula over exact
rationals. This is the metric underlying the buffered region around a
polyline and the Douglas-Peucker point-to-chord test. -/
def ptSegDist2 (p a b : Pt) : ℚ :=
  let len2 := dist2 a b
  if len2 = 0 then dist2 p a
  else
    let t := ((p.1 - a.1) * (b.1 - a.1) + (p.2 - a.2) * (b.2 - a.2)) / len2
    if t ≤ 0 then dist2 p a
    else if 1 ≤ t then dist2 p b
    else dist2 p (a.1 + t * (b.1 - a.1), a.2 + t * (b.2 - a.2))

theorem dist2_self (p : Pt) : dist2 p p = 0 := by
  simp [dist2]

theorem dist2_comm (p q : Pt) : dist2 p q = dist2 q p := by
  simp [dist2]; ring

theorem dist2_eq_zero_iff {p q : Pt} : dist2 p q = 0 ↔ p = q := by
  constructor
  · intro h
    have h1 : (p.1 - q.1) * (p.1 - q.1) ≥ 0 := mul_self_nonneg _
    have h2 : (p.2 - q.2) * (p.2 - q.2) ≥ 0 := mul_self_nonneg _
    have e1 : (p.1 - q.1) * (p.1 - q.1) = 0 := by
      unfold dist2 at h; linarith
    have e2 : (p.2 - q.2) * (p.2 - q.2) = 0 := by
      unfold dist2 at h; linarith
    have f1 : p.1 = q.1 := by
      have := mul_self_eq_zero.mp e1; linarith
    have f2 : p.2 = q.2 := by
      have := mul_self_eq_zero.mp e2; linarith
    exact Prod.ext f1 f2
  · intro h; subst h; exact dist2_self p

theorem ptSegDist2_left (a b : Pt) : ptSegDist2 a a b = 0 := by
  unfold ptSegDist2
  by_cases h : dist2 a b = 0 <;> simp [h, dist2_self]

theorem ptSegDist2_right (a b : Pt) : ptSegDist2 b a b = 0 := by
  unfold ptSegDist2
  by_cases h : dist2 a b = 0
  · have hba : b = a := (dist2_eq_zero_iff.mp (dist2_comm b a ▸ (dist2_comm a b ▸ h))).symm ▸ rfl
    have : a = b := dist2_eq_zero_iff.mp h
    simp [h, this ▸ dist2_self b, ← this, dist2_self]
  · have ht : ((b.1 - a.1) * (b.1 - a.1) + (b.2 - a.2) * (b.2 - a.2)) / dist2 a b = 1 := by
      rw [div_eq_one_iff_eq h]
      simp [dist2]; ring
    simp only [h, if_false]
    rw [ht]
    simp [dist2_self]

/-- Splits a list at the first element attaining the maximum of the
measure f: returns (before, top, after) with the list equal to
before ++ top :: after, every element of before strictly below f top, and
every element of after at most f top. Returns none only on the empty
list. This is the point-selection step of Douglas-Peucker. -/
def splitMax (f : Pt → ℚ) : List Pt → Option (List Pt × Pt × List Pt)
  | [] => none
  | x :: xs =>
    match splitMax f xs with
    | none => some ([], x, xs)
    | some (l, c, r) => if f c ≤ f x then some ([], x, xs) else some (x :: l, c, r)

theorem splitMax_nil (f : Pt → ℚ) : splitMax f [] = none := rfl

theorem splitMax_eq_none_iff (f : Pt → ℚ) (mid : List Pt) :
    splitMax f mid = none ↔ mid = [] := by
  cases mid with
  | nil => simp [splitMax]
  | cons x xs =>
    simp only [splitMax]
    cases splitMax f xs with
    | none => simp
    | some v =>
      obtain ⟨l, c, r⟩ := v
      by_cases h : f c ≤ f x <;> simp [h]

theorem splitMax_sound (f : Pt → ℚ) :
    ∀ (mid l : List Pt) (c : Pt) (r : List Pt),
      splitMax f mid = some (l, c, r) →
      mid = l ++ c :: r ∧ (∀ y ∈ l, f y < f c) ∧ (∀ y ∈ r, f y ≤ f c) := by
  intro mid
  induction mid with
  | nil => intro l c r h; simp [splitMax] at h
  | cons x xs ih =>
    intro l c r h
    simp only [splitMax] at h
    cases hxs : splitMax f xs with
    | none =>
      rw [hxs] at h
      have hxe : xs = [] := (splitMax_eq_none_iff f xs).mp hxs
      simp only [Option.some.injEq, Prod.mk.injEq] at h
      obtain ⟨h1, h2, h3⟩ := h
      subst h1; subst h2; subst h3; subst hxe
      refine ⟨rfl, by simp, by simp⟩
    | some v =>
      obtain ⟨l0, c0, r0⟩ := v
      rw [hxs] at h
      obtain ⟨he, hlt, hle⟩ := ih l0 c0 r0 hxs
      by_cases hc : f c0 ≤ f x
      · simp only [hc, if_true, Option.some.injEq, Prod.mk.injEq] at h
        obtain ⟨h1, h2, h3⟩ := h
        subst h1; subst h2; subst h3
        refine ⟨rfl, by simp, ?_⟩
        intro y hy
        rw [he] at hy
        rcases List.mem_append.mp hy with hy1 | hy2
        · exact le_trans (le_of_lt (hlt y hy1)) hc
        · rcases List.mem_cons.mp hy2 with rfl | hy3
          · exact hc
          · exact le_trans (hle y hy3) hc
      · simp only [hc, if_false, Option.some.injEq, Prod.mk.injEq] at h
        obtain ⟨h1, h2, h3⟩ := h
        subst h1; subst h2; subst h3
        refine ⟨by rw [he]; rfl, ?_, hle⟩
        intro y hy
        rcases List.mem_cons.mp hy with rfl | hy2
        · exact lt_of_not_le hc
        · exact hlt y hy2

theorem splitMax_complete (f : Pt → ℚ) :
    ∀ (l : List Pt) (c : Pt) (r : List Pt),
      (∀ y ∈ l, f y < f c) → (∀ y ∈ r, f y ≤ f c) →
      splitMax f (l ++ c :: r) = some (l, c, r) := by
  intro l
  induction l with
  | nil =>
    intro c r _ hle
    cases hr : splitMax f r with
    | none =>
      have : r = [] := (splitMax_eq_none_iff f r).mp hr
      subst this
      simp [splitMax]
    | some v =>
      obtain ⟨l0, c0, r0⟩ := v
      obtain ⟨he, _, _⟩ := splitMax_sound f r l0 c0 r0 hr
      have hc0r : c0 ∈ r := by rw [he]; simp
      have : f c0 ≤ f c := hle c0 hc0r
      simp [splitMax, hr, this]
  | cons y l ih =>
    intro c r hlt hle
    have hyc : f y < f c := hlt y (by simp)
    have hrest : splitMax f (l ++ c :: r) = some (l, c, r) :=
      ih c r (fun z hz => hlt z (by simp [hz])) hle
    simp only [List.cons_append, splitMax, List.append_eq]
    rw [hrest]
    simp [not_le.mpr hyc]

/-- Modelled from the spec: the recursive core of Douglas-Peucker line
simplification at squared tolerance t2, written with a fuel parameter so
that it is structurally recursive; the fuel is always instantiated with
the length of the interior list, which bounds the recursion depth. Given
the chord endpoints a and b and the interior points mid, it keeps the
interior point farthest from the chord when that distance exceeds the
tolerance and recurses on the two halves; otherwise it collapses to the
chord. Endpoints are always kept. -/
def dpAuxF (t2 : ℚ) : ℕ → Pt → Pt → List Pt → List Pt
  | 0, a, b, _ => [a, b]
  | fuel + 1, a, b, mid =>
    match splitMax (fun p => ptSegDist2 p a b) mid with
    | none => [a, b]
    | some (l, c, r) =>
      if ptSegDist2 c a b ≤ t2 then [a, b]
      else dpAuxF t2 fuel a c l ++ (dpAuxF t2 fuel c b r).tail

/-- Douglas-Peucker on the interior list mid with chord endpoints a and
b, run with exactly enough fuel. -/
def dpAux (t2 : ℚ) (a b : Pt) (mid : List Pt) : List Pt :=
  dpAuxF t2 mid.length a b mid

theorem dpAuxF_nil (t2 : ℚ) (fuel : ℕ) (a b : Pt) :
    dpAuxF t2 fuel a b [] = [a, b] := by
  cases fuel <;> rfl

theorem dpAuxF_fuel_irrel (t2 : ℚ) :
    ∀ (fuel1 fuel2 : ℕ) (mid : List Pt) (a b : Pt),
      mid.length ≤ fuel1 → mid.length ≤ fuel2 →
      dpAuxF t2 fuel1 a b mid = dpAuxF t2 fuel2 a b mid := by
  intro fuel1
  induction fuel1 with
  | zero =>
    intro fuel2 mid a b h1 _
    have : mid = [] := List.length_eq_zero.mp (Nat.le_zero.mp h1)
    subst this
    rw [dpAuxF_nil, dpAuxF_nil]
  | succ f1 ih =>
    intro fuel2 mid a b h1 h2
    cases hs : splitMax (fun p => ptSegDist2 p a b) mid with
    | none =>
      have : mid = [] := (splitMax_eq_none_iff _ _).mp hs
      subst this
      rw [dpAuxF_nil, dpAuxF_nil]
    | some v =>
      obtain ⟨l, c, r⟩ := v
      obtain ⟨he, _, _⟩ := splitMax_sound _ mid l c r hs
      have hmlen : mid.length = l.length + r.length + 1 := by
        rw [he]; simp only [List.length_append, List.length_cons]; omega
      match fuel2 with
      | 0 => omega
      | f2 + 1 =>
        show (match splitMax (fun p => ptSegDist2 p a b) mid with
          | none => [a, b]
          | some (l, c, r) =>
            if ptSegDist2 c a b ≤ t2 then [a, b]
            else dpAuxF t2 f1 a c l ++ (dpAuxF t2 f1 c b r).tail)
          = (match splitMax (fun p => ptSegDist2 p a b) mid with
          | none => [a, b]
          | some (l, c, r) =>
            if ptSegDist2 c a b ≤ t2 then [a, b]
            else dpAuxF t2 f2 a c l ++ (dpAuxF t2 f2 c b r).tail)
        rw [hs]
        by_cases hc : ptSegDist2 c a b ≤ t2
        · simp [hc]
        · simp only [hc, if_false]
          rw [ih f2 l a c (by omega) (by omega), ih f2 r c b (by omega) (by omega)]

theorem dpAux_of_none {t2 : ℚ} {a b : Pt} {mid : List Pt}
    (h : splitMax (fun p => ptSegDist2 p a b) mid = none) :
    dpAux t2 a b mid = [a, b] := by
  have : mid = [] := (splitMax_eq_none_iff _ _).mp h
  subst this
  rfl

theorem dpAux_of_some {t2 : ℚ} {a b : Pt} {mid l : List Pt} {c : Pt} {r : List Pt}
    (h : splitMax (fun p => ptSegDist2 p a b) mid = some (l, c, r)) :
    dpAux t2 a b mid =
      if ptSegDist2 c a b ≤ t2 then [a, b]
      else dpAux t2 a c l ++ (dpAux t2 c b r).tail := by
  obtain ⟨he, _, _⟩ := splitMax_sound _ mid l c r h
  have hmlen : mid.length = l.length + r.length + 1 := by
    rw [he]; simp only [List.length_append, List.length_cons]; omega
  show dpAuxF t2 mid.length a b mid = _
  rw [hmlen]
  show (match splitMax (fun p => ptSegDist2 p a b) mid with
    | none => [a, b]
    | some (l2, c2, r2) =>
      if ptSegDist2 c2 a b ≤ t2 then [a, b]
      else dpAuxF t2 (l.length + r.length) a c2 l2
        ++ (dpAuxF t2 (l.length + r.length) c2 b r2).tail) = _
  rw [h]
  by_cases hc : ptSegDist2 c a b ≤ t2
  · simp [hc]
  · simp only [hc, if_false]
    rw [dpAuxF_fuel_irrel t2 (l.length + r.length) l.length l a c (by omega) (le_refl _),
        dpAuxF_fuel_irrel t2 (l.length + r.length) r.length r c b (by omega) (le_refl _)]
    rfl

theorem dpAux_shape_aux (t2 : ℚ) :
    ∀ (n : ℕ) (mid : List Pt), mid.length ≤ n → ∀ (a b : Pt),
      ∃ core : List Pt, dpAux t2 a b mid = a :: core ++ [b] ∧ core.Sublist mid := by
  intro n
  induction n with
  | zero =>
    intro mid hlen a b
    have : mid = [] := List.length_eq_zero.mp (Nat.le_zero.mp hlen)
    subst this
    exact ⟨[], dpAux_of_none rfl, List.Sublist.refl _⟩
  | succ n ih =>
    intro mid hlen a b
    cases hs : splitMax (fun p => ptSegDist2 p a b) mid with
    | none => exact ⟨[], dpAux_of_none hs, by
        rw [(splitMax_eq_none_iff _ _).mp hs]⟩
    | some v =>
      obtain ⟨l, c, r⟩ := v
      obtain ⟨he, _, _⟩ := splitMax_sound _ mid l c r hs
      by_cases hc : ptSegDist2 c a b ≤ t2
      · refine ⟨[], ?_, List.nil_sublist _⟩
        rw [dpAux_of_some hs, if_pos hc]
        rfl
      · have hlenl : l.length ≤ n := by
          subst he; simp only [List.length_append, List.length_cons] at hlen; omega
        have hlenr : r.length ≤ n := by
          subst he; simp only [List.length_append, List.length_cons] at hlen; omega
        obtain ⟨cl, hcl, hcls⟩ := ih l hlenl a c
        obtain ⟨cr, hcr, hcrs⟩ := ih r hlenr c b
        refine ⟨cl ++ c :: cr, ?_, ?_⟩
        · rw [dpAux_of_some hs, if_neg hc, hcl, hcr]
          simp
        · rw [he]
          exact List.Sublist.append hcls (List.Sublist.cons₂ c hcrs)

theorem dpAux_shape (t2 : ℚ) (a b : Pt) (mid : List Pt) :
    ∃ core : List Pt, dpAux t2 a b mid = a :: core ++ [b] ∧ core.Sublist mid :=
  dpAux_shape_aux t2 mid.length mid (le_refl _) a b

theorem pairEqConsAppend {a b : Pt} {core : List Pt}
    (h : ([a, b] : List Pt) = a :: core ++ [b]) : core = [] := by
  cases core with
  | nil => rfl
  | cons x xs =>
    have := congrArg List.length h
    simp only [List.length_cons, List.length_append, List.length_nil] at this
    omega

theorem dpAux_idem_aux (t2 : ℚ) :
    ∀ (n : ℕ) (mid : List Pt), mid.length ≤ n → ∀ (a b : Pt) (core : List Pt),
      dpAux t2 a b mid = a :: core ++ [b] → dpAux t2 a b core = a :: core ++ [b] := by
  intro n
  induction n with
  | zero =>
    intro mid hlen a b core h
    have hmid : mid = [] := List.length_eq_zero.mp (Nat.le_zero.mp hlen)
    subst hmid
    rw [dpAux_of_none (splitMax_nil _)] at h
    have hce : core = [] := pairEqConsAppend h
    subst hce
    rw [dpAux_of_none (splitMax_nil _)]
    rfl
  | succ n ih =>
    intro mid hlen a b core h
    cases hs : splitMax (fun p => ptSegDist2 p a b) mid with
    | none =>
      rw [dpAux_of_none hs] at h
      have hce : core = [] := pairEqConsAppend h
      subst hce
      rw [dpAux_of_none (splitMax_nil _)]
      rfl
    | some v =>
      obtain ⟨l, c, r⟩ := v
      obtain ⟨he, hltl, hler⟩ := splitMax_sound _ mid l c r hs
      by_cases hc : ptSegDist2 c a b ≤ t2
      · rw [dpAux_of_some hs, if_pos hc] at h
        have hce : core = [] := pairEqConsAppend h
        subst hce
        rw [dpAux_of_none (splitMax_nil _)]
        rfl
      · rw [dpAux_of_some hs, if_neg hc] at h
        obtain ⟨cl, hcl, hcls⟩ := dpAux_shape t2 a c l
        obtain ⟨cr, hcr, hcrs⟩ := dpAux_shape t2 c b r
        rw [hcl, hcr] at h
        have hform : dpAux t2 a c l ++ (dpAux t2 c b r).tail
            = a :: (cl ++ c :: cr) ++ [b] := by
          rw [hcl, hcr]; simp
        rw [hcl, hcr] at hform
        have hcore : core = cl ++ c :: cr := by
          rw [hform] at h
          have h2 : (cl ++ c :: cr) ++ [b] = core ++ [b] := List.tail_eq_of_cons_eq h
          exact ((List.append_inj' h2 rfl).1).symm
        subst hcore
        have hltcl : ∀ y ∈ cl, ptSegDist2 y a b < ptSegDist2 c a b := fun y hy =>
          hltl y (hcls.subset hy)
        have hlecr : ∀ y ∈ cr, ptSegDist2 y a b ≤ ptSegDist2 c a b := fun y hy =>
          hler y (hcrs.subset hy)
        have hsplit : splitMax (fun p => ptSegDist2 p a b) (cl ++ c :: cr)
            = some (cl, c, cr) := splitMax_complete _ cl c cr hltcl hlecr
        rw [dpAux_of_some hsplit, if_neg hc]
        have hlenl : l.length ≤ n := by
          subst he; simp only [List.length_append, List.length_cons] at hlen; omega
        have hlenr : r.length ≤ n := by
          subst he; simp only [List.length_append, List.length_cons] at hlen; omega
        rw [ih l hlenl a c cl hcl, ih r hlenr c b cr hcr]
        simp

theorem dpAux_idem (t2 : ℚ) (a b : Pt) (mid core : List Pt)
    (h : dpAux t2 a b mid = a :: core ++ [b]) :
    dpAux t2 a b core = a :: core ++ [b] :=
  dpAux_idem_aux t2 mid.length mid (le_refl _) a b core h

/-- Modelled from the spec: Douglas-Peucker simplification of one line
part at squared tolerance t2. Lines with fewer than three points are
returned unchanged; otherwise the endpoints frame the recursive chord
test of dpAux. -/
def dpLine (t2 : ℚ) : List Pt → List Pt
  | [] => []
  | [p] => [p]
  | a :: x :: xs => dpAux t2 a ((x :: xs).getLast (by simp)) ((x :: xs).dropLast)

theorem dpLine_cons (t2 : ℚ) (a : Pt) (m : List Pt) (hm : m ≠ []) :
    dpLine t2 (a :: m) = dpAux t2 a (m.getLast hm) m.dropLast := by
  cases m with
  | nil => exact absurd rfl hm
  | cons x xs => rfl

theorem dpLine_shape (t2 : ℚ) (a : Pt) (m : List Pt) (hm : m ≠ []) :
    ∃ core : List Pt,
      dpLine t2 (a :: m) = a :: core ++ [m.getLast hm] ∧ core.Sublist m.dropLast := by
  rw [dpLine_cons t2 a m hm]
  exact dpAux_shape t2 a (m.getLast hm) m.dropLast

theorem dpLine_shape2 (t2 : ℚ) (a : Pt) (m : List Pt) (hm : m ≠ []) :
    ∃ (core : List Pt) (b : Pt),
      dpLine t2 (a :: m) = a :: core ++ [b] ∧ core.Sublist m.dropLast ∧
      m.getLast hm = b ∧ m.dropLast ++ [b] = m := by
  obtain ⟨core, h, hs⟩ := dpLine_shape t2 a m hm
  exact ⟨core, m.getLast hm, h, hs, rfl, List.dropLast_append_getLast hm⟩

theorem dpLine_concat (t2 : ℚ) (a b : Pt) (core : List Pt) :
    dpLine t2 (a :: core ++ [b]) = dpAux t2 a b core := by
  have hne : core ++ [b] ≠ [] := by simp
  show dpLine t2 (a :: (core ++ [b])) = dpAux t2 a b core
  rw [dpLine_cons t2 a (core ++ [b]) hne]
  congr 1
  · simp [List.getLast_append]
  · exact List.dropLast_concat ..

theorem dpLine_idem (t2 : ℚ) (l : List Pt) :
    dpLine t2 (dpLine t2 l) = dpLine t2 l := by
  match l with
  | [] => rfl
  | [p] => rfl
  | a :: x :: xs =>
    have hm : (x :: xs : List Pt) ≠ [] := by simp
    obtain ⟨core, b, hsh, hsub, hb, hm2⟩ := dpLine_shape2 t2 a (x :: xs) hm
    rw [hsh, dpLine_concat]
    have huse : dpAux t2 a b ((x :: xs).dropLast) = a :: core ++ [b] := by
      conv_lhs => rw [← hb]
      rw [← dpLine_cons t2 a (x :: xs) hm]
      exact hsh
    exact dpAux_idem t2 a b _ core huse

theorem dpLine_head? (t2 : ℚ) (l : List Pt) : (dpLine t2 l).head? = l.head? := by
  match l with
  | [] => rfl
  | [p] => rfl
  | a :: x :: xs =>
    obtain ⟨core, b, hsh, _, _, _⟩ := dpLine_shape2 t2 a (x :: xs) (by simp)
    rw [hsh]
    rfl

theorem dpLine_getLast? (t2 : ℚ) (l : List Pt) :
    (dpLine t2 l).getLast? = l.getLast? := by
  match l with
  | [] => rfl
  | [p] => rfl
  | a :: x :: xs =>
    obtain ⟨core, b, hsh, _, _, hm2⟩ := dpLine_shape2 t2 a (x :: xs) (by simp)
    rw [hsh]
    rw [show a :: core ++ [b] = (a :: core) ++ [b] from rfl, List.getLast?_concat]
    conv_rhs =>
      rw [show (a :: x :: xs : List Pt) = (a :: (x :: xs).dropLast) ++ [b] from by
        rw [List.cons_append, hm2]]
    rw [List.getLast?_concat]

theorem dpLine_sublist (t2 : ℚ) (l : List Pt) : (dpLine t2 l).Sublist l := by
  match l with
  | [] => exact List.Sublist.refl _
  | [p] => exact List.Sublist.refl _
  | a :: x :: xs =>
    obtain ⟨core, b, hsh, hsub, _, hm2⟩ := dpLine_shape2 t2 a (x :: xs) (by simp)
    rw [hsh]
    refine List.Sublist.cons₂ a ?_
    have h1 : (core ++ [b]).Sublist ((x :: xs).dropLast ++ [b]) :=
      List.Sublist.append hsub (List.Sublist.refl _)
    rw [hm2] at h1
    exact h1

theorem dpLine_two_le (t2 : ℚ) (l : List Pt) (h : 2 ≤ l.length) :
    2 ≤ (dpLine t2 l).length := by
  match l with
  | [] => simp at h
  | [p] => simp at h
  | a :: x :: xs =>
    obtain ⟨core, b, hsh, _, _, _⟩ := dpLine_shape2 t2 a (x :: xs) (by simp)
    rw [hsh]
    simp only [List.length_cons, List.length_append, List.length_nil]
    omega

/-- A multi-part line geometry: a list of line parts, each an ordered
list of points. This is the shallow embedding of a shapely
MultiLineString. -/
abbrev MultiLine : Type := List (List Pt)

/-- Modelled from the spec: simplification of a multi-part geometry at
tolerance tol simplifies every part independently with Douglas-Peucker,
comparing squared distances against the squared tolerance. -/
def simplifyMulti (tol : ℚ) (g : MultiLine) : MultiLine :=
  g.map (dpLine (tol * tol))

theorem simplifyMulti_idem (tol : ℚ) (g : MultiLine) :
    simplifyMulti tol (simplifyMulti tol g) = simplifyMulti tol g := by
  unfold simplifyMulti
  rw [List.map_map]
  exact List.map_congr_left (fun l _ => dpLine_idem (tol * tol) l)

/-- Segments of one line part: consecutive point pairs. -/
def segsOfPart (pts : List Pt) : List (Pt × Pt) := pts.zip pts.tail

/-- Segments of a multi-part geometry: segments of all parts. -/
def segsOfMulti (g : MultiLine) : List (Pt × Pt) := (g.map segsOfPart).flatten

/-- A buffered region, kept symbolically as the buffered geometry
together with the buffer radius. -/
abbrev Area : Type := MultiLine × ℚ

/-- Modelled from the spec: buffer of a geometry at radius r, the region
of all points within distance r of the geometry. -/
def bufferMulti (g : MultiLine) (r : ℚ) : Area := (g, r)

/-- Tests whether the segment s lies inside the radius-r capsule around
the single segment c: both endpoints within distance r of c. Since the
capsule is convex, this implies the whole segment does. -/
def segInCapsule (r : ℚ) (c : Pt × Pt) (s : Pt × Pt) : Bool :=
  decide (ptSegDist2 s.1 c.1 c.2 ≤ r * r) && decide (ptSegDist2 s.2 c.1 c.2 ≤ r * r)

/-- Modelled from the spec: a segment counts as covered by the buffered
region when it lies inside the capsule of a single buffered segment. -/
def segCovered (r : ℚ) (cover : List (Pt × Pt)) (s : Pt × Pt) : Bool :=
  cover.any (fun c => segInCapsule r c s)

/-- Modelled from the spec: containment test of a polyline in the
buffered region, used for the within check of the overlap loop. Every
segment of the line must be covered. -/
def lineWithin (pts : List Pt) (area : Area) : Bool :=
  (segsOfPart pts).all (fun s => segCovered area.2 (segsOfMulti area.1) s)

/-- Groups the kept segments of a part into maximal chains of
consecutive segments, each chain becoming one line part. -/
def buildRuns (keep : Pt × Pt → Bool) : List (Pt × Pt) → MultiLine
  | [] => []
  | [s] => if keep s then [[s.1, s.2]] else []
  | s :: s2 :: rest =>
    if keep s then
      if keep s2 then
        match buildRuns keep (s2 :: rest) with
        | run :: more => (s.1 :: run) :: more
        | [] => [[s.1, s.2]]
      else [s.1, s.2] :: buildRuns keep (s2 :: rest)
    else buildRuns keep (s2 :: rest)

/-- Modelled from the spec: the portion of the line not already covered
by the buffered region, as a list of new line parts. -/
def lineDifference (pts : List Pt) (area : Area) : MultiLine :=
  buildRuns (fun s => ! segCovered area.2 (segsOfMulti area.1) s) (segsOfPart pts)

theorem segsOfPart_cons2 (p q : Pt) (rest : List Pt) :
    segsOfPart (p :: q :: rest) = (p, q) :: segsOfPart (q :: rest) := rfl

theorem buildRuns_all_kept (keep : Pt × Pt → Bool) :
    ∀ (pts : List Pt), 2 ≤ pts.length →
      (∀ s ∈ segsOfPart pts, keep s = true) →
      buildRuns keep (segsOfPart pts) = [pts] := by
  intro pts
  induction pts with
  | nil => intro h; simp at h
  | cons p rest ih =>
    intro hlen hkeep
    match rest with
    | [] => simp at hlen
    | [q] =>
      have hk : keep (p, q) = true := hkeep (p, q) (by simp [segsOfPart])
      simp [segsOfPart, buildRuns, hk]
    | q :: r :: rs =>
      have hk1 : keep (p, q) = true := hkeep (p, q) (by simp [segsOfPart_cons2])
      have hk2 : keep (q, r) = true := hkeep (q, r) (by
        rw [segsOfPart_cons2]
        simp [segsOfPart_cons2])
      have hrec : buildRuns keep (segsOfPart (q :: r :: rs)) = [q :: r :: rs] := by
        refine ih (by simp) ?_
        intro s hs
        exact hkeep s (by rw [segsOfPart_cons2]; exact List.mem_cons_of_mem _ hs)
      rw [segsOfPart_cons2]
      rw [segsOfPart_cons2] at hrec
      simp only [buildRuns, hk1, hk2, if_true]
      rw [show List.zipWith Prod.mk (r :: rs) rs = segsOfPart (r :: rs) from rfl, hrec]

/-- A row of shapes.txt: shape id, coordinates, and the per-point
sequence number. The sequence field is optional because pandas treats a
missing value as null and count() skips nulls. -/
structure ShapeRow where
  shape_id : String
  shape_pt_lat : ℚ
  shape_pt_lon : ℚ
  shape_pt_sequence : Option ℚ
deriving DecidableEq

/-- A row of routes.txt restricted to the four loaded columns. -/
structure RouteRow where
  route_id : String
  agency_id : String
  route_short_name : String
  route_long_name : String
deriving DecidableEq

/-- A row of trips.txt restricted to the two loaded columns. -/
structure TripRow where
  route_id : String
  shape_id : String
deriving DecidableEq

/-- A row of the routes_trips intermediate table. -/
structure RouteTripRow where
  route_id : String
  agency_id : String
  route_short_name : String
  route_long_name : String
  shape_id : String
deriving DecidableEq

/-- A row of the routes_trips_shapes joined table. -/
structure JoinedRow where
  route_id : String
  agency_id : String
  route_short_name : String
  route_long_name : String
  shape_id : String
  shape_pt_lat : ℚ
  shape_pt_lon : ℚ
  shape_pt_sequence : Option ℚ
deriving DecidableEq

/-- Removes duplicate rows keeping the first occurrence of each value,
the behaviour of pandas drop_duplicates and of Series.unique. -/
def firstDedup {α : Type} [DecidableEq α] : List α → List α
  | [] => []
  | x :: xs => x :: (firstDedup xs).filter (fun y => y ≠ x)

theorem mem_firstDedup {α : Type} [DecidableEq α] (a : α) :
    ∀ l : List α, a ∈ firstDedup l ↔ a ∈ l := by
  intro l
  induction l with
  | nil => simp [firstDedup]
  | cons x xs ih =>
    simp only [firstDedup, List.mem_cons, List.mem_filter]
    constructor
    · rintro (rfl | ⟨hmem, _⟩)
      · exact Or.inl rfl
      · exact Or.inr (ih.mp hmem)
    · rintro (rfl | hmem)
      · exact Or.inl rfl
      · by_cases hax : a = x
        · exact Or.inl hax
        · exact Or.inr ⟨ih.mpr hmem, by simp [hax]⟩

/-- Inner join of routes and trips on route_id, source line 44. -/
def mergeRoutesTrips (routes : List RouteRow) (trips : List TripRow) :
    List RouteTripRow :=
  (routes.map (fun r => trips.filterMap (fun t =>
    if t.route_id = r.route_id then
      some ⟨r.route_id, r.agency_id, r.route_short_name, r.route_long_name,
            t.shape_id⟩
    else none))).flatten

/-- Inner join of routes_trips and shapes on shape_id, source line 47. -/
def mergeWithShapes (rt : List RouteTripRow) (shapes : List ShapeRow) :
    List JoinedRow :=
  (rt.map (fun x => shapes.filterMap (fun srow =>
    if srow.shape_id = x.shape_id then
      some ⟨x.route_id, x.agency_id, x.route_short_name, x.route_long_name,
            x.shape_id, srow.shape_pt_lat, srow.shape_pt_lon,
            srow.shape_pt_sequence⟩
    else none))).flatten

/-- The routes_trips_shapes table: trips are deduplicated before the
joins (line 40) and the joined rows are deduplicated after (line 52). -/
def routesTripsShapes (routes : List RouteRow) (trips : List TripRow)
    (shapes : List ShapeRow) : List JoinedRow :=
  firstDedup (mergeWithShapes (mergeRoutesTrips routes (firstDedup trips)) shapes)

/-- Rows of the raw shapes table belonging to one shape id, the pandas
selection shapes[shapes[shape_id] == sid]. -/
def shapeRows (shapes : List ShapeRow) (sid : String) : List ShapeRow :=
  shapes.filter (fun srow => srow.shape_id = sid)

/-- Count of non-null entries of a column, the pandas Series.count. -/
def countNonNull (l : List (Option ℚ)) : ℕ :=
  (l.filter (fun o => o.isSome)).length

/-- Number of points of a shape as the script counts it, source lines
67 to 68: the non-null count of the shape_pt_sequence column. -/
def ptCount (shapes : List ShapeRow) (sid : String) : ℕ :=
  countNonNull ((shapeRows shapes sid).map (fun srow => srow.shape_pt_sequence))

/-- The polyline built for a shape id, source lines 82 to 84: the zip of
the longitude and latitude columns of its raw rows, in table row order. -/
def polyPts (shapes : List ShapeRow) (sid : String) : List Pt :=
  ((shapeRows shapes sid).map (fun srow => srow.shape_pt_lon)).zip
    ((shapeRows shapes sid).map (fun srow => srow.shape_pt_lat))

/-- One iteration of the longest-shape selection loop, source lines 70
to 78: replace the current champion when this shape has strictly more
counted points. -/
def selStep (shapes : List ShapeRow) (best : String × ℕ) (sid : String) :
    String × ℕ :=
  if best.2 < ptCount shapes sid then (sid, ptCount shapes sid) else best

/-- The representative selection, source lines 62 to 79: start from an
arbitrary member of the set and scan the whole set, keeping the shape id
with the most counted points. -/
def selectLongest (shapes : List ShapeRow) (sids : List String) : String :=
  match sids with
  | [] => ""
  | h :: t => ((h :: t).foldl (selStep shapes) (h, ptCount shapes h)).1

/-- The buffer radius of the covered region, source line 89: 0.0001
degrees. -/
def bufRadius : ℚ := 1 / 10000

/-- The simplification tolerance, source line 110: 0.00005 degrees. -/
def simpTol : ℚ := 1 / 20000

/-- The loop state of the overlap-reduction loop: the accumulated
multiline and the buffered covered region. -/
structure RState where
  multiline : MultiLine
  area : Area
deriving DecidableEq

/-- One iteration of the overlap-reduction loop, source lines 95 to 107:
skip a shape lying within the covered region, otherwise union the
uncovered difference into the multiline and re-buffer. -/
def reduceStep (shapes : List ShapeRow) (st : RState) (sid : String) : RState :=
  let thisShape := polyPts shapes sid
  if lineWithin thisShape st.area then st
  else
    let newPart := lineDifference thisShape st.area
    let ml := st.multiline ++ newPart
    { multiline := ml, area := bufferMulti ml bufRadius }

/-- The state before the loop, source lines 82 to 89: the representative
as the single part, buffered at the fixed radius. -/
def initState (shapes : List ShapeRow) (longest : String) : RState :=
  { multiline := [polyPts shapes longest],
    area := bufferMulti [polyPts shapes longest] bufRadius }

/-- The whole overlap-reduction loop over the non-representative shape
ids. -/
def runReduce (shapes : List ShapeRow) (longest : String)
    (shorter : List String) : RState :=
  shorter.foldl (reduceStep shapes) (initState shapes longest)

/-- The set of shape ids of one route, source lines 60 to 61, as a
deduplicated list. -/
def sidsOf (rts : List JoinedRow) (rid : String) : List String :=
  firstDedup ((rts.filter (fun row => row.route_id = rid)).map
    (fun row => row.shape_id))

/-- The unique route ids of the joined table, source line 58. -/
def uniqueRouteIds (rts : List JoinedRow) : List String :=
  firstDedup (rts.map (fun row => row.route_id))

/-- The geometry built for one route from its shape-id set, source lines
62 to 111: select the representative, reduce the remaining shapes into
it, and simplify. -/
def routeGeometry (shapes : List ShapeRow) (sids : List String) : MultiLine :=
  let longest := selectLongest shapes sids
  simplifyMulti simpTol (runReduce shapes longest (sids.erase longest)).multiline

/-- An output feature: the simplified multiline tagged with the route
id, source lines 114 to 115. -/
structure Feature where
  route_id : String
  geometry : MultiLine
deriving DecidableEq

/-- The whole per-route loop, source lines 58 to 116: one feature per
unique route id of the joined table. A route whose shape-id set came out
empty produces no feature. -/
def routeShapes (routes : List RouteRow) (trips : List TripRow)
    (shapes : List ShapeRow) : List Feature :=
  (uniqueRouteIds (routesTripsShapes routes trips shapes)).filterMap (fun rid =>
    match sidsOf (routesTripsShapes routes trips shapes) rid with
    | [] => none
    | _ :: _ =>
      some ⟨rid, routeGeometry shapes
        (sidsOf (routesTripsShapes routes trips shapes) rid)⟩)

theorem selFold_spec (shapes : List ShapeRow) :
    ∀ (l : List String) (b : String),
      (l.foldl (selStep shapes) (b, ptCount shapes b)).2
        = ptCount shapes (l.foldl (selStep shapes) (b, ptCount shapes b)).1 ∧
      ((l.foldl (selStep shapes) (b, ptCount shapes b)).1 = b ∨
        (l.foldl (selStep shapes) (b, ptCount shapes b)).1 ∈ l) ∧
      ptCount shapes b ≤ (l.foldl (selStep shapes) (b, ptCount shapes b)).2 ∧
      ∀ s ∈ l, ptCount shapes s ≤ (l.foldl (selStep shapes) (b, ptCount shapes b)).2 := by
  intro l
  induction l with
  | nil => intro b; refine ⟨rfl, Or.inl rfl, le_refl _, by simp⟩
  | cons x xs ih =>
    intro b
    have hstep : ∃ b2 : String,
        selStep shapes (b, ptCount shapes b) x = (b2, ptCount shapes b2) ∧
        ptCount shapes b ≤ ptCount shapes b2 ∧ ptCount shapes x ≤ ptCount shapes b2 ∧
        (b2 = b ∨ b2 = x) := by
      unfold selStep
      by_cases hc : ptCount shapes b < ptCount shapes x
      · exact ⟨x, by simp [hc], le_of_lt hc, le_refl _, Or.inr rfl⟩
      · exact ⟨b, by simp [hc], le_refl _, le_of_not_lt hc, Or.inl rfl⟩
    obtain ⟨b2, hb2, hle1, hle2, hor⟩ := hstep
    have hfold : (x :: xs).foldl (selStep shapes) (b, ptCount shapes b)
        = xs.foldl (selStep shapes) (b2, ptCount shapes b2) := by
      simp [List.foldl_cons, hb2]
    obtain ⟨ih1, ih2, ih3, ih4⟩ := ih b2
    rw [hfold]
    refine ⟨ih1, ?_, le_trans hle1 ih3, ?_⟩
    · rcases ih2 with h | h
      · rcases hor with h2 | h2
        · exact Or.inl (h.trans h2)
        · exact Or.inr (by rw [h, h2]; exact List.mem_cons_self x xs)
      · exact Or.inr (List.mem_cons_of_mem _ h)
    · intro s hs
      rcases List.mem_cons.mp hs with rfl | hmem
      · exact le_trans hle2 ih3
      · exact ih4 s hmem

/-- Claim C1: for every non-empty shape-id set, the representative
selection returns a member of the set whose counted point number is at
least that of every other member. -/
theorem C1_selector_mem_and_max (shapes : List ShapeRow) (sids : List String)
    (hne : sids ≠ []) :
    selectLongest shapes sids ∈ sids ∧
    ∀ s ∈ sids, ptCount shapes s ≤ ptCount shapes (selectLongest shapes sids) := by
  match sids with
  | [] => exact absurd rfl hne
  | h :: t =>
    obtain ⟨h1, h2, _, h4⟩ := selFold_spec shapes (h :: t) h
    have hsel : selectLongest shapes (h :: t)
        = ((h :: t).foldl (selStep shapes) (h, ptCount shapes h)).1 := rfl
    rw [hsel]
    constructor
    · rcases h2 with he | hmem
      · rw [he]; exact List.mem_cons_self h t
      · exact hmem
    · intro s hs
      have := h4 s hs
      rw [h1] at this
      exact this

/-- Witness for C1 at a concrete table: shape B has more counted points
and is selected. -/
theorem C1_witness :
    (["A", "B"] : List String) ≠ [] ∧
    (selectLongest [⟨"A", 0, 0, some 1⟩, ⟨"B", 0, 0, some 1⟩, ⟨"B", 1, 1, some 2⟩]
        ["A", "B"] ∈ (["A", "B"] : List String) ∧
      ∀ s ∈ (["A", "B"] : List String),
        ptCount [⟨"A", 0, 0, some 1⟩, ⟨"B", 0, 0, some 1⟩, ⟨"B", 1, 1, some 2⟩] s ≤
          ptCount [⟨"A", 0, 0, some 1⟩, ⟨"B", 0, 0, some 1⟩, ⟨"B", 1, 1, some 2⟩]
            (selectLongest
              [⟨"A", 0, 0, some 1⟩, ⟨"B", 0, 0, some 1⟩, ⟨"B", 1, 1, some 2⟩]
              ["A", "B"])) :=
  ⟨by decide, C1_selector_mem_and_max _ _ (by decide)⟩

/-- Concrete shapes table for the strictness part of claim C10: one row
with a null sequence entry. -/
def exShapesTen : List ShapeRow := [⟨"S", 0, 0, some 1⟩, ⟨"S", 1, 1, none⟩]

/-- Claim C10: the point count the selector compares is the number of
rows of the shape whose sequence field is non-null, so it falls short of
the polyline length by exactly the number of null-sequence rows, and can
be strictly smaller, as the concrete table shows. -/
theorem C10_count_skips_null_sequences :
    (∀ (shapes : List ShapeRow) (sid : String),
      ptCount shapes sid +
        ((shapeRows shapes sid).filter
          (fun srow => srow.shape_pt_sequence = none)).length
        = (polyPts shapes sid).length) ∧
    ptCount exShapesTen "S" < (polyPts exShapesTen "S").length := by
  constructor
  · intro shapes sid
    have hlen : (polyPts shapes sid).length = (shapeRows shapes sid).length := by
      unfold polyPts
      rw [List.length_zip]
      simp
    have hcnt : ptCount shapes sid
        = ((shapeRows shapes sid).filter
            (fun srow => srow.shape_pt_sequence.isSome)).length := by
      unfold ptCount countNonNull
      rw [List.filter_map]
      rw [List.length_map]
      rfl
    have hneg : (shapeRows shapes sid).filter
          (fun srow => srow.shape_pt_sequence = none)
        = (shapeRows shapes sid).filter
          (fun srow => ! srow.shape_pt_sequence.isSome) := by
      apply List.filter_congr
      intro srow _
      cases srow.shape_pt_sequence <;> simp
    rw [hlen, hcnt, hneg]
    exact (List.length_eq_length_filter_add
      (fun srow : ShapeRow => srow.shape_pt_sequence.isSome)).symm
  · decide

theorem reduceStep_area (shapes : List ShapeRow) (st : RState) (sid : String)
    (h : st.area = bufferMulti st.multiline bufRadius) :
    (reduceStep shapes st sid).area
      = bufferMulti (reduceStep shapes st sid).multiline bufRadius := by
  unfold reduceStep
  by_cases hc : lineWithin (polyPts shapes sid) st.area = true
  · simp only [hc, if_true]
    exact h
  · simp only [Bool.not_eq_true] at hc
    simp only [hc, Bool.false_eq_true, if_false]

theorem foldReduce_area (shapes : List ShapeRow) :
    ∀ (l : List String) (st : RState),
      st.area = bufferMulti st.multiline bufRadius →
      (l.foldl (reduceStep shapes) st).area
        = bufferMulti (l.foldl (reduceStep shapes) st).multiline bufRadius := by
  intro l
  induction l with
  | nil => intro st h; exact h
  | cons x xs ih =>
    intro st h
    exact ih (reduceStep shapes st x) (reduceStep_area shapes st x h)

theorem runReduce_area (shapes : List ShapeRow) (longest : String)
    (l : List String) :
    (runReduce shapes longest l).area
      = bufferMulti (runReduce shapes longest l).multiline bufRadius :=
  foldReduce_area shapes l (initState shapes longest) rfl

/-- Claim C5: the covered region always equals the buffer of the current
accumulated geometry at the fixed radius 0.0001: it starts as the buffer
of the representative path and, after any number of loop iterations, is
again the buffer of the accumulated multiline at the same radius. -/
theorem C5_area_invariant (shapes : List ShapeRow) (longest : String)
    (l : List String) :
    (initState shapes longest).multiline = [polyPts shapes longest] ∧
    (initState shapes longest).area
      = bufferMulti [polyPts shapes longest] bufRadius ∧
    (runReduce shapes longest l).area
      = bufferMulti (runReduce shapes longest l).multiline bufRadius ∧
    bufRadius = 1 / 10000 :=
  ⟨rfl, rfl, runReduce_area shapes longest l, rfl⟩

theorem selectLongest_single (shapes : List ShapeRow) (s : String) :
    selectLongest shapes [s] = s := by
  simp [selectLongest, selStep]

theorem routeGeometry_single (shapes : List ShapeRow) (s : String) :
    routeGeometry shapes [s] = simplifyMulti simpTol [polyPts shapes s] := by
  unfold routeGeometry
  rw [selectLongest_single]
  show simplifyMulti simpTol (runReduce shapes s ([s].erase s)).multiline = _
  rw [List.erase_cons_head]
  rfl

/-- Claim C3: a route whose shape-id set has exactly one member gets as
output geometry the simplified form of that single path, and that
geometry has exactly one line part. -/
theorem C3_single_path_route (routes : List RouteRow) (trips : List TripRow)
    (shapes : List ShapeRow) (rid s : String)
    (hmem : rid ∈ uniqueRouteIds (routesTripsShapes routes trips shapes))
    (hone : sidsOf (routesTripsShapes routes trips shapes) rid = [s]) :
    (⟨rid, simplifyMulti simpTol [polyPts shapes s]⟩ : Feature)
        ∈ routeShapes routes trips shapes ∧
    (simplifyMulti simpTol [polyPts shapes s]).length = 1 := by
  constructor
  · unfold routeShapes
    refine List.mem_filterMap.mpr ⟨rid, hmem, ?_⟩
    rw [hone, routeGeometry_single]
  · rfl

/-- Concrete routes table for witnesses. -/
def wRoutes : List RouteRow := [⟨"R", "ag", "sn", "ln"⟩]

/-- Concrete trips table for witnesses. -/
def wTrips : List TripRow := [⟨"R", "S"⟩]

/-- Concrete shapes table for witnesses: one shape with two points. -/
def wShapes : List ShapeRow := [⟨"S", 0, 0, some 1⟩, ⟨"S", 1, 0, some 2⟩]

/-- Witness for C3 at a concrete one-route one-shape input. -/
theorem C3_witness :
    (⟨"R", simplifyMulti simpTol [polyPts wShapes "S"]⟩ : Feature)
        ∈ routeShapes wRoutes wTrips wShapes ∧
    (simplifyMulti simpTol [polyPts wShapes "S"]).length = 1 :=
  C3_single_path_route wRoutes wTrips wShapes "R" "S" (by decide) (by decide)

/-- Specification-side definition for claim C2, following the words of
the spec: the points of the path listed in the order of the per-point
sequence number, null sequence entries reading as zero. -/
def specSeqOrderedPts (shapes : List ShapeRow) (sid : String) : List Pt :=
  (List.insertionSort
    (fun r2 s2 : ShapeRow =>
      r2.shape_pt_sequence.getD 0 ≤ s2.shape_pt_sequence.getD 0)
    (shapeRows shapes sid)).map
    (fun srow => (srow.shape_pt_lon, srow.shape_pt_lat))

/-- Concrete shapes table refuting claim C2: the two rows of shape S
appear in the table in the reverse of their sequence order. -/
def exShapesRev : List ShapeRow := [⟨"S", 1, 1, some 2⟩, ⟨"S", 2, 2, some 1⟩]

/-- Counterexample to claim C2: the polyline the program builds follows
table row order, not sequence order. -/
theorem C2_counterexample :
    polyPts exShapesRev "S" ≠ specSeqOrderedPts exShapesRev "S" := by
  decide

/-- Claim C2 as amended: the polyline lists the points of the path in
table row order; this coincides with sequence order exactly when the
rows of the path already appear sorted by sequence number. -/
theorem C2_amended_row_order (shapes : List ShapeRow) (sid : String) :
    polyPts shapes sid
      = (shapeRows shapes sid).map
          (fun srow => (srow.shape_pt_lon, srow.shape_pt_lat)) ∧
    (List.Sorted
        (fun r2 s2 : ShapeRow =>
          r2.shape_pt_sequence.getD 0 ≤ s2.shape_pt_sequence.getD 0)
        (shapeRows shapes sid) →
      polyPts shapes sid = specSeqOrderedPts shapes sid) := by
  have hmap : polyPts shapes sid
      = (shapeRows shapes sid).map
          (fun srow => (srow.shape_pt_lon, srow.shape_pt_lat)) := by
    unfold polyPts
    exact List.zip_map' _ _ _
  refine ⟨hmap, ?_⟩
  intro hsorted
  unfold specSeqOrderedPts
  rw [List.Sorted.insertionSort_eq hsorted]
  exact hmap

/-- Witness for the amended C2 at a table whose rows are pre-sorted by
sequence number. -/
theorem C2_amended_witness :
    polyPts wShapes "S" = specSeqOrderedPts wShapes "S" :=
  (C2_amended_row_order wShapes "S").2 (by decide)

theorem sidsOf_ne_nil_of_mem (rts : List JoinedRow) (rid : String)
    (h : rid ∈ uniqueRouteIds rts) : sidsOf rts rid ≠ [] := by
  unfold uniqueRouteIds at h
  rw [mem_firstDedup] at h
  obtain ⟨row, hrow, hrid⟩ := List.mem_map.mp h
  have hfil : row ∈ rts.filter (fun row2 => row2.route_id = rid) :=
    List.mem_filter.mpr ⟨hrow, by simp [hrid]⟩
  have hmem : row.shape_id ∈ sidsOf rts rid := by
    unfold sidsOf
    rw [mem_firstDedup]
    exact List.mem_map.mpr ⟨row, hfil, rfl⟩
  exact List.ne_nil_of_mem hmem

theorem filterMap_length_of_isSome {α β : Type} (f : α → Option β) :
    ∀ l : List α, (∀ a ∈ l, (f a).isSome) → (l.filterMap f).length = l.length := by
  intro l
  induction l with
  | nil => intro _; rfl
  | cons x xs ih =>
    intro h
    have hx : (f x).isSome := h x (by simp)
    obtain ⟨b, hb⟩ := Option.isSome_iff_exists.mp hx
    rw [List.filterMap_cons, hb]
    simp only [List.length_cons]
    rw [ih (fun a ha => h a (List.mem_cons_of_mem x ha))]

/-- Claim C9: a feature is produced only for route ids whose shape-id
set after the joins and deduplication is non-empty; every unique route
id of the joined table yields exactly one feature (the defensive empty
branch never fires, so nothing crashes), and a route id absent from the
joined table yields no feature at all. -/
theorem C9_empty_routes (routes : List RouteRow) (trips : List TripRow)
    (shapes : List ShapeRow) :
    (∀ f ∈ routeShapes routes trips shapes,
      sidsOf (routesTripsShapes routes trips shapes) f.route_id ≠ []) ∧
    (routeShapes routes trips shapes).length
      = (uniqueRouteIds (routesTripsShapes routes trips shapes)).length ∧
    (∀ rid : String,
      rid ∉ (routesTripsShapes routes trips shapes).map (fun row => row.route_id) →
      ∀ f ∈ routeShapes routes trips shapes, f.route_id ≠ rid) := by
  refine ⟨?_, ?_, ?_⟩
  · intro f hf
    obtain ⟨rid, hrid, heq⟩ := List.mem_filterMap.mp hf
    cases hsids : sidsOf (routesTripsShapes routes trips shapes) rid with
    | nil => rw [hsids] at heq; exact absurd heq (by simp)
    | cons a l =>
      rw [hsids] at heq
      simp only [Option.some.injEq] at heq
      rw [← heq]
      simp only []
      rw [hsids]
      simp
  · unfold routeShapes
    apply filterMap_length_of_isSome
    intro rid hrid
    have hne := sidsOf_ne_nil_of_mem _ rid hrid
    cases hsids : sidsOf (routesTripsShapes routes trips shapes) rid with
    | nil => exact absurd hsids hne
    | cons a l => rfl
  · intro rid hnot f hf heq
    obtain ⟨rid2, hrid2, heq2⟩ := List.mem_filterMap.mp hf
    have hfr : f.route_id = rid2 := by
      cases hsids : sidsOf (routesTripsShapes routes trips shapes) rid2 with
      | nil => rw [hsids] at heq2; exact absurd heq2 (by simp)
      | cons a l =>
        rw [hsids] at heq2
        simp only [Option.some.injEq] at heq2
        rw [← heq2]
    rw [heq] at hfr
    apply hnot
    rw [← hfr] at hrid2
    unfold uniqueRouteIds at hrid2
    exact (mem_firstDedup rid _).mp (hfr ▸ hrid2)

/-- Witness for C9 at the concrete one-route input: the route id of the
produced feature has a non-empty shape-id set. -/
theorem C9_witness :
    sidsOf (routesTripsShapes wRoutes wTrips wShapes)
      (Feature.route_id ⟨"R", routeGeometry wShapes
        (sidsOf (routesTripsShapes wRoutes wTrips wShapes) "R")⟩) ≠ [] :=
  (C9_empty_routes wRoutes wTrips wShapes).1 _ (by decide)

/-- Claim C6: the simplifier is idempotent at a fixed tolerance;
simplifying an already-simplified geometry with the same tolerance
returns it unchanged. -/
theorem C6_simplifier_idempotent (tol : ℚ) (g : MultiLine) :
    simplifyMulti tol (simplifyMulti tol g) = simplifyMulti tol g :=
  simplifyMulti_idem tol g

/-- Claim C7: simplification keeps the number of parts, keeps each part
a connected line (an order-preserving selection of at least two of its
points whenever the input part had at least two), and preserves the
endpoints of each part exactly. -/
theorem C7_simplifier_structure (tol : ℚ) (g : MultiLine) :
    (simplifyMulti tol g).length = g.length ∧
    simplifyMulti tol g = g.map (dpLine (tol * tol)) ∧
    ∀ part ∈ g,
      (dpLine (tol * tol) part).head? = part.head? ∧
      (dpLine (tol * tol) part).getLast? = part.getLast? ∧
      (dpLine (tol * tol) part).Sublist part ∧
      (2 ≤ part.length → 2 ≤ (dpLine (tol * tol) part).length) := by
  refine ⟨List.length_map g _, rfl, ?_⟩
  intro part _
  exact ⟨dpLine_head? _ part, dpLine_getLast? _ part, dpLine_sublist _ part,
    dpLine_two_le _ part⟩

/-- Concrete line part for the C7 witness. -/
def exPart : List Pt := [(0, 0), (1, 1), (2, 2)]

/-- Witness for C7 at a concrete three-point part. -/
theorem C7_witness :
    (dpLine ((1 : ℚ) * 1) exPart).head? = exPart.head? ∧
    2 ≤ (dpLine ((1 : ℚ) * 1) exPart).length := by
  have h := (C7_simplifier_structure 1 [exPart]).2.2 exPart (by simp)
  exact ⟨h.1, h.2.2.2 (by decide)⟩

theorem segCovered_mono (r : ℚ) (cover cover2 : List (Pt × Pt)) (s : Pt × Pt)
    (hsub : ∀ c ∈ cover, c ∈ cover2) (h : segCovered r cover s = true) :
    segCovered r cover2 s = true := by
  unfold segCovered at h ⊢
  obtain ⟨c, hc, hsat⟩ := List.any_eq_true.mp h
  exact List.any_eq_true.mpr ⟨c, hsub c hc, hsat⟩

theorem segsOfMulti_append (g1 g2 : MultiLine) :
    segsOfMulti (g1 ++ g2) = segsOfMulti g1 ++ segsOfMulti g2 := by
  unfold segsOfMulti
  rw [List.map_append, List.flatten_append]

theorem segsOfMulti_single (pts : List Pt) :
    segsOfMulti [pts] = segsOfPart pts := by
  simp [segsOfMulti]

theorem reduceStep_multiline_grows (shapes : List ShapeRow) (st : RState)
    (sid : String) :
    ∃ extra : MultiLine, (reduceStep shapes st sid).multiline
      = st.multiline ++ extra := by
  unfold reduceStep
  by_cases hc : lineWithin (polyPts shapes sid) st.area = true
  · exact ⟨[], by simp [hc]⟩
  · simp only [Bool.not_eq_true] at hc
    exact ⟨lineDifference (polyPts shapes sid) st.area, by
      simp [hc]⟩

theorem foldReduce_multiline_grows (shapes : List ShapeRow) :
    ∀ (l : List String) (st : RState),
      ∃ extra : MultiLine,
        (l.foldl (reduceStep shapes) st).multiline = st.multiline ++ extra := by
  intro l
  induction l with
  | nil => intro st; exact ⟨[], by simp⟩
  | cons x xs ih =>
    intro st
    obtain ⟨e1, he1⟩ := reduceStep_multiline_grows shapes st x
    obtain ⟨e2, he2⟩ := ih (reduceStep shapes st x)
    refine ⟨e1 ++ e2, ?_⟩
    rw [List.foldl_cons, he2, he1, List.append_assoc]

theorem reduceStep_skip_of_covered (shapes : List ShapeRow) (st : RState)
    (sid : String) (repPts : List Pt) (rest : MultiLine)
    (hml : st.multiline = [repPts] ++ rest)
    (har : st.area = bufferMulti st.multiline bufRadius)
    (hcov : ∀ s ∈ segsOfPart (polyPts shapes sid),
      segCovered bufRadius (segsOfPart repPts) s = true) :
    reduceStep shapes st sid = st := by
  have hwithin : lineWithin (polyPts shapes sid) st.area = true := by
    unfold lineWithin
    rw [har]
    refine List.all_eq_true.mpr ?_
    intro s hs
    refine segCovered_mono bufRadius (segsOfPart repPts) _ s ?_ (hcov s hs)
    intro c hc
    show c ∈ segsOfMulti st.multiline
    rw [hml, segsOfMulti_append, segsOfMulti_single]
    exact List.mem_append_left _ hc
  unfold reduceStep
  simp [hwithin]

theorem segCovered_eq_true_iff (r : ℚ) (cover : List (Pt × Pt)) (s : Pt × Pt) :
    segCovered r cover s = true ↔
      ∃ c ∈ cover, ptSegDist2 s.1 c.1 c.2 ≤ r * r ∧ ptSegDist2 s.2 c.1 c.2 ≤ r * r := by
  simp [segCovered, List.any_eq_true, segInCapsule]

theorem segCovered_true_of (r : ℚ) (cover : List (Pt × Pt)) (s c : Pt × Pt)
    (hc : c ∈ cover) (h1 : ptSegDist2 s.1 c.1 c.2 ≤ r * r)
    (h2 : ptSegDist2 s.2 c.1 c.2 ≤ r * r) : segCovered r cover s = true :=
  (segCovered_eq_true_iff r cover s).mpr ⟨c, hc, h1, h2⟩

theorem lineWithin_eq_true_iff (pts : List Pt) (area : Area) :
    lineWithin pts area = true ↔
      ∀ s ∈ segsOfPart pts, segCovered area.2 (segsOfMulti area.1) s = true := by
  simp [lineWithin, List.all_eq_true]

/-- Concrete shapes table refuting claim C4: every point of shape B is a
point of shape A (the representative), but the chord of B between two
non-consecutive points of A leaves the buffered region, so B still
contributes a part. -/
def cxShapes : List ShapeRow :=
  [⟨"A", 0, 0, some 1⟩, ⟨"A", 10, 0, some 2⟩, ⟨"A", 10, 10, some 3⟩,
   ⟨"B", 0, 0, some 1⟩, ⟨"B", 10, 10, some 2⟩]

/-- Counterexample to claim C4: shape B is a point-for-point strict
subset of the representative shape A, yet the reducer output with B
present differs from the output with B absent. -/
theorem C4_counterexample :
    (∀ p ∈ polyPts cxShapes "B", p ∈ polyPts cxShapes "A") ∧
    polyPts cxShapes "B" ≠ polyPts cxShapes "A" ∧
    (runReduce cxShapes "A" ["B"]).multiline
      ≠ (runReduce cxShapes "A" []).multiline := by
  have hA : polyPts cxShapes "A" = [((0 : ℚ), (0 : ℚ)), (0, 10), (10, 10)] := by
    decide
  have hB : polyPts cxShapes "B" = [((0 : ℚ), (0 : ℚ)), (10, 10)] := by
    decide
  have hncov : segCovered bufRadius
      (segsOfMulti [[((0 : ℚ), (0 : ℚ)), (0, 10), (10, 10)]])
      (((0 : ℚ), (0 : ℚ)), ((10 : ℚ), (10 : ℚ))) = false := by
    rw [Bool.eq_false_iff]
    intro h
    obtain ⟨c, hc, h1, h2⟩ := (segCovered_eq_true_iff _ _ _).mp h
    simp [segsOfMulti, segsOfPart] at hc
    rcases hc with rfl | rfl
    · norm_num [ptSegDist2, dist2, bufRadius] at h2
    · norm_num [ptSegDist2, dist2, bufRadius] at h1
  have harea : (initState cxShapes "A").area
      = ([[((0 : ℚ), (0 : ℚ)), (0, 10), (10, 10)]], bufRadius) := by
    simp [initState, bufferMulti, hA]
  have hwithin : lineWithin (polyPts cxShapes "B") (initState cxShapes "A").area
      = false := by
    rw [hB, harea, Bool.eq_false_iff]
    intro h
    have := (lineWithin_eq_true_iff _ _).mp h
      (((0 : ℚ), (0 : ℚ)), ((10 : ℚ), (10 : ℚ)))
      (by simp [segsOfPart])
    rw [hncov] at this
    exact absurd this (by simp)
  have hdiff : lineDifference (polyPts cxShapes "B") (initState cxShapes "A").area
      = [[((0 : ℚ), (0 : ℚ)), (10, 10)]] := by
    rw [hB, harea]
    unfold lineDifference
    show buildRuns _ [(((0 : ℚ), (0 : ℚ)), ((10 : ℚ), (10 : ℚ)))] = _
    unfold buildRuns
    rw [hncov]
    rfl
  have hrun : (runReduce cxShapes "A" ["B"]).multiline
      = (initState cxShapes "A").multiline ++ [[((0 : ℚ), (0 : ℚ)), (10, 10)]] := by
    unfold runReduce
    rw [List.foldl_cons, List.foldl_nil]
    simp only [reduceStep]
    rw [hwithin]
    simp only [Bool.false_eq_true, if_false]
    rw [hdiff]
  refine ⟨by decide, by decide, ?_⟩
  rw [hrun]
  intro heq
  have hlen := congrArg List.length heq
  simp [runReduce, initState] at hlen

/-- Claim C4 as amended: a path every segment of which lies within the
buffered region of the representative (in particular a path identical to
the representative, or any contiguous sub-chain of it) contributes
nothing; the reducer state is the same as if that path were absent. A
path whose points merely form a subset of the points of another path can
still contribute, because a chord between non-consecutive points may
leave the buffered region. -/
theorem C4_amended_covered_contributes_nothing (shapes : List ShapeRow)
    (rep bId : String) (l1 l2 : List String)
    (hcov : ∀ s ∈ segsOfPart (polyPts shapes bId),
      segCovered bufRadius (segsOfPart (polyPts shapes rep)) s = true) :
    runReduce shapes rep (l1 ++ bId :: l2) = runReduce shapes rep (l1 ++ l2) := by
  unfold runReduce
  rw [List.foldl_append, List.foldl_append, List.foldl_cons]
  have hskip : reduceStep shapes (l1.foldl (reduceStep shapes)
      (initState shapes rep)) bId
      = l1.foldl (reduceStep shapes) (initState shapes rep) := by
    obtain ⟨extra, hex⟩ := foldReduce_multiline_grows shapes l1 (initState shapes rep)
    refine reduceStep_skip_of_covered shapes _ bId (polyPts shapes rep) extra ?_ ?_ hcov
    · rw [hex]; rfl
    · exact foldReduce_area shapes l1 (initState shapes rep) rfl
  rw [hskip]

/-- Concrete shapes table for the amended C4 witness: shape B is
identical to the representative shape A. -/
def cxShapesIdent : List ShapeRow :=
  [⟨"A", 0, 0, some 1⟩, ⟨"A", 1, 0, some 2⟩,
   ⟨"B", 0, 0, some 1⟩, ⟨"B", 1, 0, some 2⟩]

/-- Witness for the amended C4: a path identical to the representative
leaves the reducer state unchanged. -/
theorem C4_amended_witness :
    runReduce cxShapesIdent "A" ["B"] = runReduce cxShapesIdent "A" [] := by
  refine C4_amended_covered_contributes_nothing cxShapesIdent "A" "B" [] [] ?_
  have hA : polyPts cxShapesIdent "A" = [((0 : ℚ), (0 : ℚ)), (0, 1)] := by decide
  have hB : polyPts cxShapesIdent "B" = [((0 : ℚ), (0 : ℚ)), (0, 1)] := by decide
  rw [hA, hB]
  intro s hs
  simp [segsOfPart] at hs
  subst hs
  refine segCovered_true_of _ _ _ (((0 : ℚ), (0 : ℚ)), ((0 : ℚ), (1 : ℚ)))
    (by simp [segsOfPart]) ?_ ?_
  · show ptSegDist2 ((0 : ℚ), (0 : ℚ)) ((0 : ℚ), (0 : ℚ)) ((0 : ℚ), (1 : ℚ))
      ≤ bufRadius * bufRadius
    rw [ptSegDist2_left]
    exact mul_self_nonneg bufRadius
  · show ptSegDist2 ((0 : ℚ), (1 : ℚ)) ((0 : ℚ), (0 : ℚ)) ((0 : ℚ), (1 : ℚ))
      ≤ bufRadius * bufRadius
    rw [ptSegDist2_right]
    exact mul_self_nonneg bufRadius

theorem segsOfPart_length_pos (pts : List Pt) (h : 2 ≤ pts.length) :
    0 < (segsOfPart pts).length := by
  unfold segsOfPart
  rw [List.length_zip, List.length_tail]
  omega

/-- Claim C8: for a route with exactly two spatially disjoint shapes
(no segment of the non-representative lies within the buffered region of
the representative), the output geometry has exactly two parts, the
simplified representative and the simplified other path. -/
theorem C8_two_disjoint_paths (shapes : List ShapeRow) (s1 s2 rep othr : String)
    (hne : s1 ≠ s2)
    (hro : (rep = s1 ∧ othr = s2) ∨ (rep = s2 ∧ othr = s1))
    (hsel : selectLongest shapes [s1, s2] = rep)
    (hlen2 : 2 ≤ (polyPts shapes othr).length)
    (hdisj : ∀ s ∈ segsOfPart (polyPts shapes othr),
      segCovered bufRadius (segsOfPart (polyPts shapes rep)) s = false) :
    routeGeometry shapes [s1, s2]
      = [dpLine (simpTol * simpTol) (polyPts shapes rep),
         dpLine (simpTol * simpTol) (polyPts shapes othr)] ∧
    (routeGeometry shapes [s1, s2]).length = 2 := by
  have hconv : (initState shapes rep).area = ([polyPts shapes rep], bufRadius) := rfl
  have herase : [s1, s2].erase rep = [othr] := by
    rcases hro with ⟨h1, h2⟩ | ⟨h1, h2⟩
    · subst h1; subst h2
      rw [List.erase_cons_head]
    · subst h1; subst h2
      rw [List.erase_cons_tail (not_beq_of_ne hne), List.erase_cons_head]
  obtain ⟨s0, hs0⟩ := List.exists_mem_of_ne_nil _
    (List.ne_nil_of_length_pos (segsOfPart_length_pos _ hlen2))
  have hwithin : lineWithin (polyPts shapes othr) (initState shapes rep).area
      = false := by
    rw [Bool.eq_false_iff]
    intro h
    rw [hconv] at h
    have hall := (lineWithin_eq_true_iff _ _).mp h s0 hs0
    simp only [segsOfMulti_single] at hall
    rw [hdisj s0 hs0] at hall
    exact absurd hall (by simp)
  have hdiffall : lineDifference (polyPts shapes othr) (initState shapes rep).area
      = [polyPts shapes othr] := by
    unfold lineDifference
    refine buildRuns_all_kept _ (polyPts shapes othr) hlen2 ?_
    intro s hs
    show (!segCovered ((initState shapes rep).area).2
      (segsOfMulti ((initState shapes rep).area).1) s) = true
    rw [hconv]
    show (!segCovered bufRadius (segsOfMulti [polyPts shapes rep]) s) = true
    rw [segsOfMulti_single, hdisj s hs]
    rfl
  have hrun : runReduce shapes rep [othr]
      = { multiline := [polyPts shapes rep] ++ [polyPts shapes othr],
          area := bufferMulti ([polyPts shapes rep] ++ [polyPts shapes othr])
            bufRadius } := by
    unfold runReduce
    rw [List.foldl_cons, List.foldl_nil]
    simp only [reduceStep]
    rw [hwithin]
    simp only [Bool.false_eq_true, if_false]
    rw [hdiffall]
    rfl
  have hmain : routeGeometry shapes [s1, s2]
      = [dpLine (simpTol * simpTol) (polyPts shapes rep),
         dpLine (simpTol * simpTol) (polyPts shapes othr)] := by
    unfold routeGeometry
    rw [hsel]
    show simplifyMulti simpTol
      (runReduce shapes rep ([s1, s2].erase rep)).multiline = _
    rw [herase, hrun]
    rfl
  exact ⟨hmain, by rw [hmain]; rfl⟩

/-- Concrete shapes table for the C8 witness: two shapes far apart. -/
def wdShapes : List ShapeRow :=
  [⟨"A", 0, 0, some 1⟩, ⟨"A", 1, 0, some 2⟩,
   ⟨"B", 0, 10, some 1⟩, ⟨"B", 1, 10, some 2⟩]

/-- Witness for C8 at two concrete disjoint two-point shapes. -/
theorem C8_witness :
    routeGeometry wdShapes ["A", "B"]
      = [dpLine (simpTol * simpTol) (polyPts wdShapes "A"),
         dpLine (simpTol * simpTol) (polyPts wdShapes "B")] ∧
    (routeGeometry wdShapes ["A", "B"]).length = 2 := by
  refine C8_two_disjoint_paths wdShapes "A" "B" "A" "B" (by decide)
    (Or.inl ⟨rfl, rfl⟩) (by decide) (by decide) ?_
  have hA : polyPts wdShapes "A" = [((0 : ℚ), (0 : ℚ)), (0, 1)] := by decide
  have hB : polyPts wdShapes "B" = [((10 : ℚ), (0 : ℚ)), (10, 1)] := by decide
  rw [hA, hB]
  intro s hs
  simp [segsOfPart] at hs
  subst hs
  rw [Bool.eq_false_iff]
  intro h
  obtain ⟨c, hc, h1, h2⟩ := (segCovered_eq_true_iff _ _ _).mp h
  simp [segsOfPart] at hc
  subst hc
  norm_num [ptSegDist2, dist2, bufRadius] at h1
